import Mathlib

/-!
Shallow embedding of `pythonx/pudb_and_jam.py`, a vim ↔ pudb breakpoint
sync adapter.

The external breakpoint store is modelled as a list of breakpoint records
(`List BP`) in the store's native iteration order; `save_breakpoints` is
full-replace, so an adapter operation that persists is modelled as a
function from the prior store (plus any editor inputs it reads) to the
store it saves.  The Python `dict` built by `breakpoint_dict` is modelled
as an association list with Python's insertion semantics: assigning to an
existing key updates the value in place (keeping its position), assigning
a fresh key appends; iteration order of `values()` is this list order.
The vim editor is modelled by explicit parameters: the cursor position is
a `(file, line)` key, the set of loaded buffers (with their line contents)
is a function `String → Option (List String)`, and UI side effects
(`sign_unplace` / `sign_place`) are reified as a list of `UIAction`s.
-/

namespace PudbAndJam

/-- A breakpoint identity key: `(file path, line number)`. -/
abbrev Key := String × Nat

/-- A breakpoint record as stored by pudb and wrapped in `bdb.Breakpoint`:
absolute file path, 1-based line, optional condition.  `Breakpoint(file, line)`
with no further arguments has `cond = None`, modelled as `none`. -/
structure BP where
  file : String
  line : Nat
  cond : Option String
deriving DecidableEq

/-- The identity key of a breakpoint record, `(bp.file, bp.line)`. -/
def bpKey (bp : BP) : Key := (bp.file, bp.line)

/-- The keys of the records of a store, in store order. -/
def keysOf (store : List BP) : List Key := store.map bpKey

/-- Python dict assignment `m[k] = v` on the association-list model:
update in place if the key is present (keeping its position), else append. -/
def dinsert : List (Key × BP) → Key → BP → List (Key × BP)
  | [], k, v => [(k, v)]
  | p :: rest, k, v => if p.1 = k then (k, v) :: rest else p :: dinsert rest k v

/-- Python dict lookup `m[k]` (as an `Option`). -/
def dlookup : List (Key × BP) → Key → Option BP
  | [], _ => none
  | p :: rest, k => if p.1 = k then some p.2 else dlookup rest k

/-- Python `k in m`. -/
def dcontains (m : List (Key × BP)) (k : Key) : Bool :=
  m.any (fun p => decide (p.1 = k))

/-- Python `m.pop(k)`: remove the entry with key `k`. -/
def derase (m : List (Key × BP)) (k : Key) : List (Key × BP) :=
  m.filter (fun p => decide (p.1 ≠ k))

/-- Python `m.values()`, in dict iteration order. -/
def dvalues (m : List (Key × BP)) : List BP := m.map Prod.snd

/-- Python mutation `bps[bp_key].cond = c`: the code mutates the breakpoint
object held in the dict, so the entry's value changes in place while its key
and position are untouched. -/
def dsetCond (m : List (Key × BP)) (k : Key) (c : String) : List (Key × BP) :=
  m.map (fun p => if p.1 = k then (p.1, { p.2 with cond := some c }) else p)

/-- Model of `breakpoint_dict()`: fold the store's records, in store order,
into a dict keyed by `(file, line)` —
`{(bp.file, bp.line): bp for bp in breakpoints()}`. -/
def breakpoint_dict (store : List BP) : List (Key × BP) :=
  store.foldl (fun m bp => dinsert m (bpKey bp) bp) []

/-- The display string of one breakpoint:
`'{file}:{line:d}:{cond}'.format(file=bp.file, line=bp.line, cond=bp.cond if bp.cond else ' ')`.
Python truthiness makes both `None` and the empty string render as `' '`. -/
def bpString (bp : BP) : String :=
  bp.file ++ ":" ++ toString bp.line ++ ":" ++
    (match bp.cond with
     | some c => if c = "" then " " else c
     | none => " ")

/-- Model of `breakpoint_strings()`: one display string per stored breakpoint,
in store order. -/
def breakpoint_strings (store : List BP) : List String := store.map bpString

/-- Model of `toggle()`: load the dict; if the cursor key is present pop it, otherwise
insert `Breakpoint(*bp_key)` (unconditional); the list returned is the full
set handed to `save_breakpoints(bps.values())`. -/
def toggle (store : List BP) (pos : Key) : List BP :=
  let bps := breakpoint_dict store
  if dcontains bps pos then dvalues (derase bps pos)
  else dvalues (dinsert bps pos ⟨pos.1, pos.2, none⟩)

/-- The dict state of `edit()` just before the blocking `input()` prompt:
if the cursor key is absent a fresh unconditional `Breakpoint(*bp_key)` has
been inserted. -/
def edit_pre (store : List BP) (pos : Key) : List (Key × BP) :=
  let bps := breakpoint_dict store
  if dcontains bps pos then bps else dinsert bps pos ⟨pos.1, pos.2, none⟩

/-- The string the `input()` prompt of `edit()` is pre-filled with:
`'' if bp.cond is None else bp.cond` for the breakpoint at the cursor key. -/
def edit_prefill (store : List BP) (pos : Key) : String :=
  match dlookup (edit_pre store pos) pos with
  | some bp =>
    match bp.cond with
    | some c => c
    | none => ""
  | none => ""

/-- Model of `edit()`: after the prompt returns the string `input`, the breakpoint at
the cursor key gets `bp.cond = input` and the full set is persisted via
`save_breakpoints(bps.values())`.  The persisted store is a function of the
prompt's return value, reflecting that persistence happens only after the
blocking prompt. -/
def edit (store : List BP) (pos : Key) (input : String) : List BP :=
  dvalues (dsetCond (edit_pre store pos) pos input)

/-- Model of `clearAll()`: `save_breakpoints([])` — the persisted store is
empty whatever the prior store held. -/
def clearAll (_store : List BP) : List BP := []

/-- A reified editor UI side effect of `update()`: either
`sign_unplace(g:pudb_sign_group)` or a successful
`sign_place(0, group, "PudbBreakPoint", file, {lnum, priority})`. -/
inductive UIAction where
  | unplaceAll : UIAction
  | place : String → Nat → Nat → UIAction
deriving DecidableEq

/-- Model of `update()`: one `sign_unplace` for the whole group, then one `sign_place`
per stored breakpoint; `sign_place` raises `vim.error` when the breakpoint's
buffer is not loaded, which the `except` clause swallows (`continue`), so an
unloaded buffer contributes no action and the loop proceeds. -/
def update (store : List BP) (loaded : String → Bool) (priority : Nat) : List UIAction :=
  UIAction.unplaceAll ::
    store.foldl
      (fun acc bp =>
        if loaded bp.file then acc ++ [UIAction.place bp.file bp.line priority] else acc)
      []

/-- Model of `vim.eval('getbufline(file, line)')[0]`: `getbufline` yields the 1-based
line of a loaded buffer as a one-element list, and the empty list when the
buffer is not loaded or the line is out of range; indexing `[0]` then raises
`IndexError` (a `LookupError`), modelled as `none`. -/
def bufferLine (buffers : String → Option (List String)) (file : String) (line : Nat) :
    Option String :=
  match buffers file with
  | some ls => ls.get? (line - 1)
  | none => none

/-- Python `s.strip()`: drop whitespace from both ends. -/
def pyStrip (s : String) : String :=
  String.mk (((s.data.dropWhile Char.isWhitespace).reverse.dropWhile Char.isWhitespace).reverse)

/-- The line text used by `populateList` for one breakpoint: the source line
when the lookup succeeds and the line is not blank, `'<blank line>'` when
`line.strip() == ''`, and `'<buffer not loaded>'` when the lookup raises. -/
def qfLineText (buffers : String → Option (List String)) (bp : BP) : String :=
  match bufferLine buffers bp.file bp.line with
  | some l => if pyStrip l = "" then "<blank line>" else l
  | none => "<buffer not loaded>"

/-- One quickfix entry: `':'.join(map(str, [bp.file, bp.line, line]))`. -/
def qfEntry (buffers : String → Option (List String)) (bp : BP) : String :=
  bp.file ++ ":" ++ toString bp.line ++ ":" ++ qfLineText buffers bp

/-- Model of `populateList(list_command)`: the list handed to the vim
list-consumer command, one entry per stored breakpoint in store order. -/
def populateList (buffers : String → Option (List String)) (store : List BP) : List String :=
  store.map (qfEntry buffers)

/-- Every dict entry built by the adapter pairs a key with a breakpoint whose
own `(file, line)` is that key. -/
def WFDict (m : List (Key × BP)) : Prop := ∀ p ∈ m, p.1 = bpKey p.2

/-! ### Basic dict lemmas -/

theorem keys_dinsert_of_mem {m : List (Key × BP)} {k : Key} (v : BP)
    (h : k ∈ m.map Prod.fst) :
    (dinsert m k v).map Prod.fst = m.map Prod.fst := by
  induction m with
  | nil => simp at h
  | cons p rest ih =>
    simp only [dinsert]
    by_cases hk : p.1 = k
    · simp [hk]
    · simp only [if_neg hk, List.map_cons]
      simp only [List.map_cons, List.mem_cons] at h
      rcases h with h | h

      · exact absurd h.symm hk
      · rw [ih h]

theorem dinsert_of_not_mem {m : List (Key × BP)} {k : Key} (v : BP)
    (h : k ∉ m.map Prod.fst) :
    dinsert m k v = m ++ [(k, v)] := by
  induction m with
  | nil => rfl
  | cons p rest ih =>
    simp only [List.map_cons, List.mem_cons] at h
    push_neg at h
    have hne : p.1 ≠ k := fun hh => h.1 hh.symm
    simp only [dinsert, if_neg hne, List.cons_append]
    rw [ih h.2]

theorem keys_nodup_dinsert {m : List (Key × BP)} {k : Key} (v : BP)
    (h : (m.map Prod.fst).Nodup) :
    ((dinsert m k v).map Prod.fst).Nodup := by
  by_cases hk : k ∈ m.map Prod.fst
  · rw [keys_dinsert_of_mem v hk]; exact h
  · rw [dinsert_of_not_mem v hk]
    simp only [List.map_append, List.map_cons, List.map_nil]
    exact List.Nodup.append h (List.nodup_singleton k) (by simpa using hk)

theorem wf_dinsert {m : List (Key × BP)} {k : Key} {v : BP}
    (h : WFDict m) (hv : k = bpKey v) : WFDict (dinsert m k v) := by
  induction m with
  | nil => intro p hp; simp only [dinsert, List.mem_singleton] at hp; subst hp; exact hv
  | cons q rest ih =>
    intro p hp
    simp only [dinsert] at hp
    by_cases hk : q.1 = k
    · rw [if_pos hk] at hp
      rcases List.mem_cons.mp hp with h1 | h1
      · subst h1; exact hv
      · exact h p (List.mem_cons_of_mem q h1)
    · rw [if_neg hk] at hp
      rcases List.mem_cons.mp hp with h1 | h1
      · subst h1; exact h p (List.mem_cons_self p rest)
      · exact ih (fun q hq => h q (List.mem_cons_of_mem _ hq)) p h1

theorem breakpoint_dict_invariant (store : List BP) :
    ((breakpoint_dict store).map Prod.fst).Nodup ∧ WFDict (breakpoint_dict store) := by
  suffices h : ∀ (m : List (Key × BP)), (m.map Prod.fst).Nodup → WFDict m →
      ((store.foldl (fun m bp => dinsert m (bpKey bp) bp) m).map Prod.fst).Nodup ∧
        WFDict (store.foldl (fun m bp => dinsert m (bpKey bp) bp) m) by
    exact h [] (by simp) (by intro p hp; simp at hp)
  induction store with
  | nil => intro m h1 h2; exact ⟨h1, h2⟩
  | cons bp rest ih =>
    intro m h1 h2
    exact ih _ (keys_nodup_dinsert bp h1) (wf_dinsert h2 rfl)

theorem getLast?_cons_eq {α : Type} (a : α) (l : List α) :
    (a :: l).getLast? = some (l.getLast?.getD a) := by
  induction l generalizing a with
  | nil => rfl
  | cons b t ih =>
    rw [List.getLast?_cons_cons, ih b]
    simp

theorem dlookup_dinsert (m : List (Key × BP)) (k : Key) (v : BP) (k' : Key) :
    dlookup (dinsert m k v) k' = if k = k' then some v else dlookup m k' := by
  induction m with
  | nil => rfl
  | cons p rest ih =>
    simp only [dinsert]
    by_cases hk : p.1 = k
    · rw [if_pos hk]
      by_cases hk' : k = k'
      · simp [dlookup, hk']
      · have hp' : ¬p.1 = k' := by rw [hk]; exact hk'
        simp [dlookup, hk', hp']
    · rw [if_neg hk]
      simp only [dlookup, ih]
      by_cases hp : p.1 = k'
      · have hkk : ¬k = k' := fun h => hk (by rw [h, hp])
        simp [hp, hkk]
      · by_cases hkk : k = k' <;> simp [hp, hkk]

theorem dlookup_foldl (store : List BP) (m : List (Key × BP)) (k : Key) :
    dlookup (store.foldl (fun m bp => dinsert m (bpKey bp) bp) m) k =
      ((store.filter (fun bp => decide (bpKey bp = k))).getLast?).elim (dlookup m k) some := by
  induction store generalizing m with
  | nil => rfl
  | cons bp rest ih =>
    rw [List.foldl_cons, ih, dlookup_dinsert]
    by_cases hbp : bpKey bp = k
    · rw [if_pos hbp]
      have : (bp :: rest).filter (fun bp => decide (bpKey bp = k)) =
          bp :: rest.filter (fun bp => decide (bpKey bp = k)) := by
        simp [List.filter_cons, hbp]
      rw [this, getLast?_cons_eq]
      cases hlast : (rest.filter (fun bp => decide (bpKey bp = k))).getLast? with
      | none => simp [hlast]
      | some b => simp [hlast]
    · rw [if_neg hbp]
      have : (bp :: rest).filter (fun bp => decide (bpKey bp = k)) =
          rest.filter (fun bp => decide (bpKey bp = k)) := by
        simp [List.filter_cons, hbp]
      rw [this]

theorem dcontains_iff (m : List (Key × BP)) (k : Key) :
    dcontains m k = true ↔ k ∈ m.map Prod.fst := by
  simp only [dcontains, List.any_eq_true, decide_eq_true_eq, List.mem_map]

theorem map_eq_self_of {α : Type} (l : List α) (f : α → α) (h : ∀ a ∈ l, f a = a) :
    l.map f = l := by
  induction l with
  | nil => rfl
  | cons a t ih =>
    rw [List.map_cons, h a (List.mem_cons_self a t),
      ih (fun b hb => h b (List.mem_cons_of_mem a hb))]

theorem filter_map_pair (p : Key × BP → Bool) (l : List BP) :
    (l.map (fun bp => (bpKey bp, bp))).filter p =
      (l.filter (fun bp => p (bpKey bp, bp))).map (fun bp => (bpKey bp, bp)) := by
  induction l with
  | nil => rfl
  | cons bp rest ih =>
    simp only [List.map_cons, List.filter_cons]
    cases hp : p (bpKey bp, bp) <;> simp [hp, ih]

theorem breakpoint_dict_of_nodup {store : List BP} (h : (keysOf store).Nodup) :
    breakpoint_dict store = store.map (fun bp => (bpKey bp, bp)) := by
  suffices hgen : ∀ (store : List BP) (m : List (Key × BP)),
      ((m.map Prod.fst) ++ keysOf store).Nodup →
      store.foldl (fun m bp => dinsert m (bpKey bp) bp) m =
        m ++ store.map (fun bp => (bpKey bp, bp)) by
    have := hgen store [] (by simpa using h)
    simpa [breakpoint_dict] using this
  intro store'
  induction store' with
  | nil => intro m _; simp
  | cons bp rest ih =>
    intro m hm
    have hsplit := List.nodup_append.mp hm
    have hkm : bpKey bp ∉ m.map Prod.fst := by
      intro hin
      exact hsplit.2.2 hin (by simp [keysOf])
    rw [List.foldl_cons, dinsert_of_not_mem bp hkm]
    have harr : ((m ++ [(bpKey bp, bp)]).map Prod.fst ++ keysOf rest).Nodup := by
      have : (m.map Prod.fst ++ keysOf (bp :: rest)) =
          ((m ++ [(bpKey bp, bp)]).map Prod.fst ++ keysOf rest) := by
        simp [keysOf, List.append_assoc]
      rw [← this]
      exact hm
    rw [ih (m ++ [(bpKey bp, bp)]) harr, List.map_cons, List.append_assoc,
      List.singleton_append]

theorem keysOf_dvalues {m : List (Key × BP)} (h : WFDict m) :
    keysOf (dvalues m) = m.map Prod.fst := by
  simp only [keysOf, dvalues, List.map_map]
  exact List.map_congr_left (fun p hp => (h p hp).symm)

theorem wf_derase {m : List (Key × BP)} (h : WFDict m) (k : Key) : WFDict (derase m k) :=
  fun p hp => h p (List.mem_of_mem_filter hp)

theorem keys_nodup_derase {m : List (Key × BP)} (h : (m.map Prod.fst).Nodup) (k : Key) :
    ((derase m k).map Prod.fst).Nodup :=
  ((List.filter_sublist m).map Prod.fst).nodup h

theorem keys_dsetCond (m : List (Key × BP)) (k : Key) (c : String) :
    (dsetCond m k c).map Prod.fst = m.map Prod.fst := by
  simp only [dsetCond, List.map_map]
  refine List.map_congr_left (fun p _ => ?_)
  by_cases hp : p.1 = k <;> simp [hp]

theorem wf_dsetCond {m : List (Key × BP)} (h : WFDict m) (k : Key) (c : String) :
    WFDict (dsetCond m k c) := by
  intro p hp
  simp only [dsetCond, List.mem_map] at hp
  obtain ⟨q, hq, hfq⟩ := hp
  by_cases hqk : q.1 = k
  · rw [if_pos hqk] at hfq
    rw [← hfq]
    exact h q hq
  · rw [if_neg hqk] at hfq
    rw [← hfq]
    exact h q hq

theorem keys_map_pair (store : List BP) :
    (store.map (fun bp => (bpKey bp, bp))).map Prod.fst = keysOf store := by
  simp [keysOf]

theorem dvalues_map_pair (l : List BP) :
    dvalues (l.map (fun bp => (bpKey bp, bp))) = l := by
  rw [dvalues, List.map_map]
  exact (List.map_congr_left (fun bp _ => rfl)).trans (List.map_id l)

/-- Toggling at a key present in a unique-key store pops exactly that key's
entry and persists every other record untouched, in order. -/
theorem toggle_of_mem {store : List BP} {pos : Key} (h : (keysOf store).Nodup)
    (hmem : pos ∈ keysOf store) :
    toggle store pos = store.filter (fun bp => decide (bpKey bp ≠ pos)) := by
  have hd := breakpoint_dict_of_nodup h
  have hc : dcontains (breakpoint_dict store) pos = true := by
    rw [dcontains_iff, hd, keys_map_pair]
    exact hmem
  have hstep : toggle store pos = dvalues (derase (breakpoint_dict store) pos) := by
    simp [toggle, hc]
  rw [hstep, hd]
  simp only [derase, filter_map_pair]
  rw [dvalues_map_pair]

/-- Toggling at a key absent from a unique-key store appends a fresh
unconditional breakpoint after the existing records. -/
theorem toggle_of_not_mem {store : List BP} {pos : Key} (h : (keysOf store).Nodup)
    (hmem : pos ∉ keysOf store) :
    toggle store pos = store ++ [⟨pos.1, pos.2, none⟩] := by
  have hd := breakpoint_dict_of_nodup h
  have hc : ¬dcontains (breakpoint_dict store) pos = true := by
    rw [dcontains_iff, hd, keys_map_pair]
    exact hmem
  have hk : pos ∉ (breakpoint_dict store).map Prod.fst := fun hin =>
    hc ((dcontains_iff _ _).mpr hin)
  simp only [toggle, if_neg hc]
  rw [dinsert_of_not_mem _ hk, dvalues, List.map_append, hd]
  rw [← dvalues, dvalues_map_pair]
  rfl

theorem dlookup_append_right (a b : List (Key × BP)) (k : Key)
    (h : k ∉ a.map Prod.fst) : dlookup (a ++ b) k = dlookup b k := by
  induction a with
  | nil => rfl
  | cons p rest ih =>
    simp only [List.map_cons, List.mem_cons] at h
    push_neg at h
    have hp : ¬p.1 = k := fun hh => h.1 hh.symm
    simp only [List.cons_append, dlookup, if_neg hp]
    exact ih h.2

/-- When the cursor key is absent, `edit` first inserts one fresh
unconditional breakpoint: the dict just before the prompt is the loaded dict
with exactly one appended entry. -/
theorem edit_pre_absent {store : List BP} {pos : Key}
    (h : dcontains (breakpoint_dict store) pos = false) :
    edit_pre store pos = breakpoint_dict store ++ [(pos, ⟨pos.1, pos.2, none⟩)] := by
  have hc : ¬dcontains (breakpoint_dict store) pos = true := by rw [h]; exact Bool.false_ne_true
  have hk : pos ∉ (breakpoint_dict store).map Prod.fst := fun hin =>
    hc ((dcontains_iff _ _).mpr hin)
  simp only [edit_pre, if_neg hc]
  exact dinsert_of_not_mem _ hk

theorem dsetCond_of_not_mem {m : List (Key × BP)} {k : Key} (c : String)
    (h : k ∉ m.map Prod.fst) : dsetCond m k c = m := by
  refine map_eq_self_of m _ (fun p hp => ?_)
  have hp1 : ¬p.1 = k := fun hh => h (hh ▸ List.mem_map_of_mem Prod.fst hp)
  rw [if_neg hp1]

/-- When the cursor key is absent, the store persisted by `edit` is the loaded
values followed by one breakpoint at that key whose condition is exactly the
string the prompt returned. -/
theorem edit_absent {store : List BP} {pos : Key} (input : String)
    (h : dcontains (breakpoint_dict store) pos = false) :
    edit store pos input = dvalues (breakpoint_dict store) ++ [⟨pos.1, pos.2, some input⟩] := by
  have hc : ¬dcontains (breakpoint_dict store) pos = true := by rw [h]; exact Bool.false_ne_true
  have hk : pos ∉ (breakpoint_dict store).map Prod.fst := fun hin =>
    hc ((dcontains_iff _ _).mpr hin)
  simp only [edit, edit_pre_absent h, dsetCond, List.map_append]
  rw [← dsetCond, dsetCond_of_not_mem input hk]
  simp [dvalues]

theorem update_foldl (store : List BP) (loaded : String → Bool) (priority : Nat)
    (acc : List UIAction) :
    store.foldl
      (fun acc bp =>
        if loaded bp.file then acc ++ [UIAction.place bp.file bp.line priority] else acc)
      acc =
    acc ++ (store.filter (fun bp => loaded bp.file)).map
      (fun bp => UIAction.place bp.file bp.line priority) := by
  induction store generalizing acc with
  | nil => simp
  | cons bp rest ih =>
    simp only [List.foldl_cons, List.filter_cons]
    cases h : loaded bp.file <;> simp [h, ih]

theorem pyStrip_eq_empty_iff (s : String) :
    pyStrip s = "" ↔ ∀ c ∈ s.data, c.isWhitespace := by
  have hdrop : ∀ (l : List Char), (∀ c ∈ l.dropWhile Char.isWhitespace, c.isWhitespace) ↔
      ∀ c ∈ l, c.isWhitespace := by
    intro l
    constructor
    · intro h c hc
      rcases List.mem_append.mp ((List.takeWhile_append_dropWhile Char.isWhitespace l) ▸ hc) with
        h1 | h1
      · exact List.mem_takeWhile_imp h1
      · exact h c h1
    · intro h c hc
      exact h c ((List.dropWhile_sublist Char.isWhitespace).subset hc)
  constructor
  · intro h c hc
    have hL : (((s.data.dropWhile Char.isWhitespace).reverse.dropWhile
        Char.isWhitespace).reverse) = [] := by
      have := congrArg String.data h
      simpa [pyStrip] using this
    rw [List.reverse_eq_nil_iff, List.dropWhile_eq_nil_iff] at hL
    have hall : ∀ x ∈ s.data.dropWhile Char.isWhitespace, Char.isWhitespace x := by
      intro x hx
      exact hL x (List.mem_reverse.mpr hx)
    exact (hdrop s.data).mp hall c hc
  · intro h
    have h1 : s.data.dropWhile Char.isWhitespace = [] :=
      List.dropWhile_eq_nil_iff.mpr (fun x hx => h x hx)
    simp [pyStrip, h1]

/-! ### Claim theorems -/

/-- Claim C2: after any adapter mutating operation — `toggle`, `edit` (edit
condition) or `clearAll` — the set persisted to the store contains at most one
breakpoint per `(file path, line number)` key, for every prior store state,
cursor position and prompt input. -/
theorem claim_C2 (store : List BP) (pos : Key) (input : String) :
    (keysOf (toggle store pos)).Nodup ∧ (keysOf (edit store pos input)).Nodup ∧
      (keysOf (clearAll store)).Nodup := by
  obtain ⟨hnd, hwf⟩ := breakpoint_dict_invariant store
  refine ⟨?_, ?_, by simp [clearAll, keysOf]⟩
  · cases hc : dcontains (breakpoint_dict store) pos with
    | true =>
      have hstep : toggle store pos = dvalues (derase (breakpoint_dict store) pos) := by
        simp [toggle, hc]
      rw [hstep, keysOf_dvalues (wf_derase hwf pos)]
      exact keys_nodup_derase hnd pos
    | false =>
      have hstep : toggle store pos =
          dvalues (dinsert (breakpoint_dict store) pos ⟨pos.1, pos.2, none⟩) := by
        simp [toggle, hc]
      have hv : pos = bpKey (⟨pos.1, pos.2, none⟩ : BP) := rfl
      rw [hstep, keysOf_dvalues (wf_dinsert hwf hv)]
      exact keys_nodup_dinsert _ hnd
  · have hpre : ((edit_pre store pos).map Prod.fst).Nodup ∧ WFDict (edit_pre store pos) := by
      cases hc : dcontains (breakpoint_dict store) pos with
      | true =>
        have hstep : edit_pre store pos = breakpoint_dict store := by simp [edit_pre, hc]
        rw [hstep]
        exact ⟨hnd, hwf⟩
      | false =>
        have hstep : edit_pre store pos =
            dinsert (breakpoint_dict store) pos ⟨pos.1, pos.2, none⟩ := by
          simp [edit_pre, hc]
        rw [hstep]
        have hv : pos = bpKey (⟨pos.1, pos.2, none⟩ : BP) := rfl
        exact ⟨keys_nodup_dinsert _ hnd, wf_dinsert hwf hv⟩
    have hstep : edit store pos input = dvalues (dsetCond (edit_pre store pos) pos input) := rfl
    rw [hstep, keysOf_dvalues (wf_dsetCond hpre.2 pos input), keys_dsetCond]
    exact hpre.1

/-- Claim C2 witness: a concrete store with a duplicate key, toggled, edited
and cleared. -/
theorem claim_C2_witness :
    (keysOf (toggle [⟨"/a.py", 10, some "x>0"⟩, ⟨"/a.py", 10, none⟩, ⟨"/b.py", 3, none⟩]
      ("/a.py", 10))).Nodup ∧
    (keysOf (edit [⟨"/a.py", 10, some "x>0"⟩, ⟨"/a.py", 10, none⟩, ⟨"/b.py", 3, none⟩]
      ("/a.py", 10) "y<2")).Nodup ∧
    (keysOf (clearAll [⟨"/a.py", 10, some "x>0"⟩, ⟨"/a.py", 10, none⟩,
      ⟨"/b.py", 3, none⟩])).Nodup :=
  claim_C2 [⟨"/a.py", 10, some "x>0"⟩, ⟨"/a.py", 10, none⟩, ⟨"/b.py", 3, none⟩]
    ("/a.py", 10) "y<2"

/-- Claim C3: each display string is exactly `file:line:cond` where the
condition part is the condition when a (nonempty) condition is set and a
single space when no condition is set (`None`, or the empty string, which the
spec's data model equates with unconditional); in particular the two-element
scenario store renders exactly as claimed, in store order. -/
theorem claim_C3 (bp : BP) :
    (∀ c, bp.cond = some c → c ≠ "" →
      bpString bp = bp.file ++ ":" ++ toString bp.line ++ ":" ++ c) ∧
    ((bp.cond = none ∨ bp.cond = some "") →
      bpString bp = bp.file ++ ":" ++ toString bp.line ++ ":" ++ " ") ∧
    breakpoint_strings [⟨"/a.py", 10, none⟩, ⟨"/a.py", 20, some "x>0"⟩] =
      ["/a.py:10: ", "/a.py:20:x>0"] := by
  refine ⟨?_, ?_, by decide⟩
  · intro c hc hne
    simp [bpString, hc, hne]
  · rintro (hc | hc) <;> simp [bpString, hc]

/-- Claim C3 witness: a breakpoint with a nonempty condition renders with the
condition as its final field. -/
theorem claim_C3_witness :
    bpString ⟨"/b.py", 7, some "n==3"⟩ = "/b.py" ++ ":" ++ toString 7 ++ ":" ++ "n==3" :=
  (claim_C3 ⟨"/b.py", 7, some "n==3"⟩).1 "n==3" rfl (by decide)

/-- Claim C4: `clearAll` persists the empty breakpoint set whatever the prior
store held, so loading the mapping afterwards yields the empty mapping. -/
theorem claim_C4 (store : List BP) :
    clearAll store = [] ∧ breakpoint_dict (clearAll store) = [] :=
  ⟨rfl, rfl⟩

/-- Claim C4 witness: clearing a concrete two-breakpoint store. -/
theorem claim_C4_witness :
    clearAll [⟨"/a.py", 10, none⟩, ⟨"/b.py", 20, some "x>0"⟩] = [] ∧
    breakpoint_dict (clearAll [⟨"/a.py", 10, none⟩, ⟨"/b.py", 20, some "x>0"⟩]) = [] :=
  claim_C4 [⟨"/a.py", 10, none⟩, ⟨"/b.py", 20, some "x>0"⟩]

/-- Claim C6: the mapping built by `breakpoint_dict` is keyed by each record's
own `(file, line)` pair, and looking up any key returns exactly the last
record of the store (in its native iteration order) carrying that key —
last-write-wins on duplicate keys. -/
theorem claim_C6 (store : List BP) (k : Key) :
    dlookup (breakpoint_dict store) k =
      (store.filter (fun bp => decide (bpKey bp = k))).getLast? ∧
    (breakpoint_dict store).map Prod.fst = keysOf (dvalues (breakpoint_dict store)) := by
  refine ⟨?_, (keysOf_dvalues (breakpoint_dict_invariant store).2).symm⟩
  have h := dlookup_foldl store [] k
  have hbase : dlookup ([] : List (Key × BP)) k = none := rfl
  rw [hbase] at h
  have hdict : breakpoint_dict store = store.foldl (fun m bp => dinsert m (bpKey bp) bp) [] := rfl
  rw [hdict, h]
  cases (store.filter (fun bp => decide (bpKey bp = k))).getLast? <;> rfl

/-- Claim C6 witness: two records share the key `("/a.py", 10)`; the lookup
returns the later one. -/
theorem claim_C6_witness :
    dlookup (breakpoint_dict [⟨"/a.py", 10, some "old"⟩, ⟨"/a.py", 10, some "new"⟩])
        ("/a.py", 10) =
      (([⟨"/a.py", 10, some "old"⟩, ⟨"/a.py", 10, some "new"⟩] : List BP).filter
        (fun bp => decide (bpKey bp = ("/a.py", 10)))).getLast? ∧
    (breakpoint_dict [⟨"/a.py", 10, some "old"⟩, ⟨"/a.py", 10, some "new"⟩]).map Prod.fst =
      keysOf (dvalues (breakpoint_dict [⟨"/a.py", 10, some "old"⟩, ⟨"/a.py", 10, some "new"⟩])) :=
  claim_C6 [⟨"/a.py", 10, some "old"⟩, ⟨"/a.py", 10, some "new"⟩] ("/a.py", 10)

/-- Claim C1 counterexample: a store holding the single conditional breakpoint
`("/a.py", 10, "x>0")`, toggled twice at its own key, persists an
unconditional breakpoint — the original condition is not restored, so the
original breakpoint set is not restored. -/
theorem claim_C1_counterexample :
    toggle (toggle [⟨"/a.py", 10, some "x>0"⟩] ("/a.py", 10)) ("/a.py", 10) =
      [⟨"/a.py", 10, none⟩] ∧
    toggle (toggle [⟨"/a.py", 10, some "x>0"⟩] ("/a.py", 10)) ("/a.py", 10) ≠
      [⟨"/a.py", 10, some "x>0"⟩] := by
  decide

/-- Claim C1 (amended): for every breakpoint set with unique `(file, line)`
keys and every cursor key, toggling twice at that key restores the original
set exactly when the key was absent; when the key was present, every
breakpoint at a different key is restored with its original file, line and
condition, but the breakpoint at the toggled key comes back unconditional
(and moves to the end of store order) — its original condition is lost. -/
theorem claim_C1_amended (store : List BP) (pos : Key) (h : (keysOf store).Nodup) :
    (pos ∉ keysOf store → toggle (toggle store pos) pos = store) ∧
    (pos ∈ keysOf store →
      toggle (toggle store pos) pos =
        store.filter (fun bp => decide (bpKey bp ≠ pos)) ++ [⟨pos.1, pos.2, none⟩]) := by
  constructor
  · intro hmem
    rw [toggle_of_not_mem h hmem]
    have hkeys : keysOf (store ++ [⟨pos.1, pos.2, none⟩]) = keysOf store ++ [pos] := by
      simp [keysOf, bpKey]
    have h2 : (keysOf (store ++ [⟨pos.1, pos.2, none⟩])).Nodup := by
      rw [hkeys]
      exact List.Nodup.append h (List.nodup_singleton pos) (by simpa using hmem)
    have hmem2 : pos ∈ keysOf (store ++ [⟨pos.1, pos.2, none⟩]) := by
      rw [hkeys]
      exact List.mem_append_right _ (List.mem_singleton.mpr rfl)
    rw [toggle_of_mem h2 hmem2, List.filter_append]
    have hall : store.filter (fun bp => decide (bpKey bp ≠ pos)) = store := by
      refine List.filter_eq_self.mpr (fun bp hbp => decide_eq_true (fun hEq => ?_))
      exact hmem (hEq ▸ List.mem_map_of_mem bpKey hbp)
    have hsingle : ([⟨pos.1, pos.2, none⟩] : List BP).filter
        (fun bp => decide (bpKey bp ≠ pos)) = [] := by
      simp [bpKey]
    rw [hall, hsingle, List.append_nil]
  · intro hmem
    rw [toggle_of_mem h hmem]
    have h2 : (keysOf (store.filter (fun bp => decide (bpKey bp ≠ pos)))).Nodup :=
      ((List.filter_sublist store).map bpKey).nodup h
    have hnm : pos ∉ keysOf (store.filter (fun bp => decide (bpKey bp ≠ pos))) := by
      intro hin
      simp only [keysOf, List.mem_map] at hin
      obtain ⟨bp, hbp, hk⟩ := hin
      exact (of_decide_eq_true (List.mem_filter.mp hbp).2) hk
    rw [toggle_of_not_mem h2 hnm]

/-- Claim C1 witness: toggling twice at a present key on a concrete unique-key
store keeps the other breakpoint intact and re-appends the toggled key
unconditionally. -/
theorem claim_C1_witness :
    toggle (toggle [⟨"/a.py", 10, some "x>0"⟩, ⟨"/b.py", 5, none⟩] ("/a.py", 10))
        ("/a.py", 10) =
      ([⟨"/a.py", 10, some "x>0"⟩, ⟨"/b.py", 5, none⟩] : List BP).filter
        (fun bp => decide (bpKey bp ≠ ("/a.py", 10))) ++ [⟨"/a.py", 10, none⟩] :=
  (claim_C1_amended [⟨"/a.py", 10, some "x>0"⟩, ⟨"/b.py", 5, none⟩] ("/a.py", 10)
    (by decide)).2 (by decide)

/-- Claim C9: toggling at a key present in a breakpoint set (unique keys, per
the spec's store invariant) persists exactly the other breakpoints, each
unchanged with its original file, line and condition, in store order — only
the breakpoint at the toggled key is removed. -/
theorem claim_C9 (store : List BP) (pos : Key) (h : (keysOf store).Nodup)
    (hmem : pos ∈ keysOf store) :
    toggle store pos = store.filter (fun bp => decide (bpKey bp ≠ pos)) :=
  toggle_of_mem h hmem

/-- Claim C9 witness: the spec's scenario — cursor at `("/a.py", 10)` which
has a breakpoint; toggling leaves only `("/a.py", 20, "x>0")`. -/
theorem claim_C9_witness :
    toggle [⟨"/a.py", 10, none⟩, ⟨"/a.py", 20, some "x>0"⟩] ("/a.py", 10) =
      ([⟨"/a.py", 10, none⟩, ⟨"/a.py", 20, some "x>0"⟩] : List BP).filter
        (fun bp => decide (bpKey bp ≠ ("/a.py", 10))) :=
  claim_C9 [⟨"/a.py", 10, none⟩, ⟨"/a.py", 20, some "x>0"⟩] ("/a.py", 10)
    (by decide) (by decide)

/-- Claim C5: invoked at a key with no existing breakpoint, `edit` inserts
exactly one new unconditional breakpoint at that key before prompting (the
dict just before the prompt is the loaded dict plus that single entry, and
the prompt is pre-filled with the empty string), and the store persisted
afterwards is a function of the prompt's returned string — the new
breakpoint's condition is exactly that string, so persistence happens only
after the blocking prompt returns. -/
theorem claim_C5 (store : List BP) (pos : Key) (input : String)
    (h : dcontains (breakpoint_dict store) pos = false) :
    edit_pre store pos = breakpoint_dict store ++ [(pos, ⟨pos.1, pos.2, none⟩)] ∧
    edit_prefill store pos = "" ∧
    edit store pos input = dvalues (breakpoint_dict store) ++ [⟨pos.1, pos.2, some input⟩] := by
  refine ⟨edit_pre_absent h, ?_, edit_absent input h⟩
  have hc : ¬dcontains (breakpoint_dict store) pos = true := by
    rw [h]
    exact Bool.false_ne_true
  have hk : pos ∉ (breakpoint_dict store).map Prod.fst := fun hin =>
    hc ((dcontains_iff _ _).mpr hin)
  simp only [edit_prefill, edit_pre_absent h]
  rw [dlookup_append_right _ _ _ hk]
  simp [dlookup]

/-- Claim C5 witness: editing at the fresh key `("/a.py", 10)` of a concrete
store, with the prompt returning `"i>0"`. -/
theorem claim_C5_witness :
    edit_pre [⟨"/b.py", 3, some "y<2"⟩] ("/a.py", 10) =
      breakpoint_dict [⟨"/b.py", 3, some "y<2"⟩] ++ [(("/a.py", 10), ⟨"/a.py", 10, none⟩)] ∧
    edit_prefill [⟨"/b.py", 3, some "y<2"⟩] ("/a.py", 10) = "" ∧
    edit [⟨"/b.py", 3, some "y<2"⟩] ("/a.py", 10) "i>0" =
      dvalues (breakpoint_dict [⟨"/b.py", 3, some "y<2"⟩]) ++ [⟨"/a.py", 10, some "i>0"⟩] :=
  claim_C5 [⟨"/b.py", 3, some "y<2"⟩] ("/a.py", 10) "i>0" (by decide)

/-- Claim C10: a breakpoint whose condition is the empty string renders in the
listing exactly like an unconditional one (the condition part is a single
space), because the format tests truthiness; consequently, entering `""` at
the edit prompt for a fresh key produces a store whose listing is identical
to the one toggling that key in would produce. -/
theorem claim_C10 (f : String) (l : Nat) (store : List BP) (pos : Key)
    (h : dcontains (breakpoint_dict store) pos = false) :
    bpString ⟨f, l, some ""⟩ = bpString ⟨f, l, none⟩ ∧
    breakpoint_strings (edit store pos "") = breakpoint_strings (toggle store pos) := by
  refine ⟨by simp [bpString], ?_⟩
  have hc : ¬dcontains (breakpoint_dict store) pos = true := by
    rw [h]
    exact Bool.false_ne_true
  have hk : pos ∉ (breakpoint_dict store).map Prod.fst := fun hin =>
    hc ((dcontains_iff _ _).mpr hin)
  have htog : toggle store pos = dvalues (breakpoint_dict store) ++ [⟨pos.1, pos.2, none⟩] := by
    have hstep : toggle store pos =
        dvalues (dinsert (breakpoint_dict store) pos ⟨pos.1, pos.2, none⟩) := by
      simp [toggle, h]
    rw [hstep, dinsert_of_not_mem _ hk, dvalues, List.map_append]
    rfl
  rw [edit_absent "" h, htog]
  simp [breakpoint_strings, bpString]

/-- Claim C10 witness: entering `""` at the edit prompt at a fresh key yields
the same listing as toggling there, on a concrete store. -/
theorem claim_C10_witness :
    bpString ⟨"/a.py", 10, some ""⟩ = bpString ⟨"/a.py", 10, none⟩ ∧
    breakpoint_strings (edit [⟨"/b.py", 3, some "y<2"⟩] ("/a.py", 10) "") =
      breakpoint_strings (toggle [⟨"/b.py", 3, some "y<2"⟩] ("/a.py", 10)) :=
  claim_C10 "/a.py" 10 [⟨"/b.py", 3, some "y<2"⟩] ("/a.py", 10) (by decide)

/-- Claim C7 counterexample: the buffer for `/a.py` is loaded (it holds one
line), yet the breakpoint at line 5 — out of the buffer's range — produces the
placeholder `<buffer not loaded>`, not the literal source line the claim's
trichotomy requires for a loaded buffer. -/
theorem claim_C7_counterexample :
    (fun file => if file = "/a.py" then some ["print(1)"] else none) "/a.py" =
      some ["print(1)"] ∧
    qfEntry (fun file => if file = "/a.py" then some ["print(1)"] else none)
      ⟨"/a.py", 5, none⟩ = "/a.py:5:<buffer not loaded>" := by
  constructor
  · rfl
  · rfl

/-- Claim C7 (amended): each `populateList` entry is `file:line:linetext`,
where linetext is the literal placeholder `<buffer not loaded>` when the
breakpoint's buffer is not loaded **or the line is out of the buffer's
range** (both raise the same `LookupError`), the literal placeholder
`<blank line>` when the looked-up line text is empty or all-whitespace, and
the literal source line otherwise; one entry is produced per breakpoint
regardless of these failures. -/
theorem claim_C7_amended (buffers : String → Option (List String)) (store : List BP)
    (bp : BP) (l : String) :
    ((buffers bp.file = none ∨
        (∃ ls, buffers bp.file = some ls ∧ ls.get? (bp.line - 1) = none)) →
      qfEntry buffers bp =
        bp.file ++ ":" ++ toString bp.line ++ ":" ++ "<buffer not loaded>") ∧
    (bufferLine buffers bp.file bp.line = some l → (∀ c ∈ l.data, c.isWhitespace) →
      qfEntry buffers bp = bp.file ++ ":" ++ toString bp.line ++ ":" ++ "<blank line>") ∧
    (bufferLine buffers bp.file bp.line = some l → ¬(∀ c ∈ l.data, c.isWhitespace) →
      qfEntry buffers bp = bp.file ++ ":" ++ toString bp.line ++ ":" ++ l) ∧
    (populateList buffers store).length = store.length := by
  refine ⟨?_, ?_, ?_, by simp [populateList]⟩
  · intro h
    have hnone : bufferLine buffers bp.file bp.line = none := by
      rcases h with h | ⟨ls, h1, h2⟩
      · simp [bufferLine, h]
      · simp only [bufferLine, h1]
        exact h2
    simp [qfEntry, qfLineText, hnone]
  · intro h hws
    have hb : pyStrip l = "" := (pyStrip_eq_empty_iff l).mpr hws
    simp [qfEntry, qfLineText, h, hb]
  · intro h hws
    have hb : ¬pyStrip l = "" := fun hh => hws ((pyStrip_eq_empty_iff l).mp hh)
    simp [qfEntry, qfLineText, h, hb]

/-- Claim C7 witness: one editor with `/a.py` loaded (a blank first line and a
code second line); the three linetext cases and the one-entry-per-breakpoint
count all evaluated concretely. -/
theorem claim_C7_witness :
    (((fun file => if file = "/a.py" then some ["   ", "x = 1"] else none) "/b.py" = none ∨
        (∃ ls, (fun file => if file = "/a.py" then some ["   ", "x = 1"] else none) "/b.py" =
          some ls ∧ ls.get? ((7 : Nat) - 1) = none)) →
      qfEntry (fun file => if file = "/a.py" then some ["   ", "x = 1"] else none)
          ⟨"/b.py", 7, none⟩ =
        "/b.py" ++ ":" ++ toString (7 : Nat) ++ ":" ++ "<buffer not loaded>") ∧
    (bufferLine (fun file => if file = "/a.py" then some ["   ", "x = 1"] else none)
        "/b.py" 7 = some "x = 1" → (∀ c ∈ "x = 1".data, c.isWhitespace) →
      qfEntry (fun file => if file = "/a.py" then some ["   ", "x = 1"] else none)
          ⟨"/b.py", 7, none⟩ =
        "/b.py" ++ ":" ++ toString (7 : Nat) ++ ":" ++ "<blank line>") ∧
    (bufferLine (fun file => if file = "/a.py" then some ["   ", "x = 1"] else none)
        "/b.py" 7 = some "x = 1" → ¬(∀ c ∈ "x = 1".data, c.isWhitespace) →
      qfEntry (fun file => if file = "/a.py" then some ["   ", "x = 1"] else none)
          ⟨"/b.py", 7, none⟩ =
        "/b.py" ++ ":" ++ toString (7 : Nat) ++ ":" ++ "x = 1") ∧
    (populateList (fun file => if file = "/a.py" then some ["   ", "x = 1"] else none)
      [⟨"/a.py", 1, none⟩, ⟨"/a.py", 2, none⟩, ⟨"/b.py", 7, none⟩]).length =
      ([⟨"/a.py", 1, none⟩, ⟨"/a.py", 2, none⟩, ⟨"/b.py", 7, none⟩] : List BP).length :=
  claim_C7_amended (fun file => if file = "/a.py" then some ["   ", "x = 1"] else none)
    [⟨"/a.py", 1, none⟩, ⟨"/a.py", 2, none⟩, ⟨"/b.py", 7, none⟩] ⟨"/b.py", 7, none⟩ "x = 1"

/-- Claim C8: `update` first unplaces all previously placed signs (its first
UI action), then places one sign per breakpoint whose buffer is loaded; a
breakpoint whose buffer is not loaded contributes nothing and the loop
continues, so removing such a breakpoint from anywhere in the store leaves
the rendered actions unchanged — one failing breakpoint never prevents the
others from being rendered. -/
theorem claim_C8 (store1 store2 : List BP) (bp : BP) (loaded : String → Bool)
    (priority : Nat) (h : loaded bp.file = false) :
    update (store1 ++ bp :: store2) loaded priority =
      update (store1 ++ store2) loaded priority ∧
    ∀ store : List BP, update store loaded priority =
      UIAction.unplaceAll ::
        (store.filter (fun b => loaded b.file)).map
          (fun b => UIAction.place b.file b.line priority) := by
  have hchar : ∀ store : List BP, update store loaded priority =
      UIAction.unplaceAll ::
        (store.filter (fun b => loaded b.file)).map
          (fun b => UIAction.place b.file b.line priority) := by
    intro store
    simp [update, update_foldl]
  refine ⟨?_, hchar⟩
  rw [hchar, hchar]
  simp [List.filter_append, List.filter_cons, h]

/-- Claim C8 witness: a store whose middle breakpoint's buffer is not loaded
renders exactly as the store without it. -/
theorem claim_C8_witness :
    update [⟨"/a.py", 1, none⟩, ⟨"/c.py", 2, none⟩, ⟨"/a.py", 3, some "x"⟩]
        (fun f => decide (f = "/a.py")) 10 =
      update [⟨"/a.py", 1, none⟩, ⟨"/a.py", 3, some "x"⟩] (fun f => decide (f = "/a.py")) 10 :=
  (claim_C8 [⟨"/a.py", 1, none⟩] [⟨"/a.py", 3, some "x"⟩] ⟨"/c.py", 2, none⟩
    (fun f => decide (f = "/a.py")) 10 (by decide)).1

end PudbAndJam
